import Mathlib

/-!
Verification development for the interview-transcriber repository.

The development shallowly embeds the algorithmic parts of the repository:

* `src/ai.ts` (`splitTranscription`, `countTokens`, `proofreadTranscription`):
  the token-budget-aware text segmenter;
* `src/ffmpeg.ts` (`splitAudio`): the size-bounded media splitter;
* `src/gdrive.ts` (`getFileMetadata`) and `src/transcribe.ts` (`transcribe`):
  the metadata-before-download pipeline prefix and the ordered fan-in of
  concurrent per-segment calls.

Conventions of the embedding:

* JavaScript numbers are modelled by `ℚ`.  Every comparison the code makes
  compares an integer token/unit count against a constant of the form
  `B * r` with `B ∈ {4096, 2048}` and `r ∈ {2/5, 9/20}`; the IEEE-double
  value of that constant differs from the rational value by less than
  `2⁻⁴⁰`, while integers are never within `1/8192` of either constant
  unless they are equal to neither, so the rational model decides every
  comparison exactly as the double model does.
* The token estimator (`countTokens`, an external tokenizer or API call)
  and the locale-aware unit counter (`Intl.Segmenter`, word- or
  grapheme-granular) are opaque external collaborators; they are passed
  as function parameters `countTokens : String → Nat` and
  `segmenterCount : String → Nat`.  The fallible variant of the estimator
  is `String → Except ε Nat`.
* Fallible code returns `Except`.
-/

/-- One line of the transcription together with its segmenter unit count,
mirroring the `{ text, length }` records built in `splitTranscription`. -/
abbrev Line : Type := String × Nat

/-- A line group (`segments[i]` in the source): an ordered list of lines. -/
abbrev LineGroup : Type := List Line

/-- Split a character list at every occurrence of `c` (the separator is
dropped; empty pieces are kept), as `String.prototype.split` does for a
single-character separator. -/
def splitChar (c : Char) : List Char → List (List Char)
  | [] => [[]]
  | a :: rest =>
    if a = c then [] :: splitChar c rest
    else
      match splitChar c rest with
      | [] => [[a]]
      | l :: ls => (a :: l) :: ls

/-- A piece is blank when every character is whitespace; `line.trim()` is
falsy in JavaScript exactly for such pieces. -/
def isBlankLine (s : String) : Bool := s.data.all Char.isWhitespace

/-- The line list the segmenter works on:
`transcription.split(/\n+/).filter((line) => line.trim())`.
Splitting on runs of newlines and dropping blank pieces yields the same
list as splitting on every single newline and dropping blank pieces,
because each extra piece produced by the single-character split is empty
and hence blank. -/
def normalizedLines (t : String) : List String :=
  ((splitChar '\n' t.data).map (fun l => String.mk l)).filter
    (fun l => !(isBlankLine l))

/-- Model of `Array.prototype.join(sep)` on a list of strings. -/
def joinSep (sep : String) : List String → String
  | [] => ""
  | [x] => x
  | x :: y :: xs => x ++ sep ++ joinSep sep (y :: xs)

/-- Model of `segment.map(({ text }) => text).join("\n")` in the source. -/
def joinGroup (g : LineGroup) : String := joinSep "\n" (g.map Prod.fst)

/-- The three models of the `models` table in `src/ai.ts`. -/
inductive ModelKey : Type
  | gpt4turbo
  | gpt4
  | gemini
deriving DecidableEq

/-- Table of `models[model].maxOutputTokens` in `src/ai.ts`. -/
def maxOutputTokens : ModelKey → Nat
  | .gpt4turbo => 4096
  | .gpt4 => 4096
  | .gemini => 2048

/-- Constant `maxInputTokensRatio = 0.4` in `splitTranscription`. -/
def maxInputTokensRatio : ℚ := 2 / 5

/-- The extra 5% of tokens the refinement loop tolerates. -/
def tokenTolerance : ℚ := 1 / 20

/-- Token threshold of the refinement loop:
`models[model].maxOutputTokens * (maxInputTokensRatio + 0.05)`. -/
def refineThreshold (model : ModelKey) : ℚ :=
  (maxOutputTokens model : ℚ) * (maxInputTokensRatio + tokenTolerance)

/-- Computation `expectedSegments = Math.ceil(transcriptionTokens /
(models[model].maxOutputTokens * maxInputTokensRatio))`, as a function of
the total token count returned by the estimator. -/
def expectedSegmentsOf (model : ModelKey) (tokens : Nat) : Nat :=
  (⌈(tokens : ℚ) / ((maxOutputTokens model : ℚ) * maxInputTokensRatio)⌉).toNat

/-- Unit count of a group: `lastSegment.reduce((sum, { length }) => sum +
length, 0)`. -/
def groupUnits (g : LineGroup) : Nat := (g.map Prod.snd).sum

/-- The grouping test `lastSegmentLength + length < segmentLength`, where
`segmentLength = unitCount / expectedSegments` is an IEEE division.  When
`expectedSegments = 0` (total token estimate 0) JavaScript produces
`Infinity` (if `unitCount ≠ 0`; every comparison is true) or `NaN` (if
`unitCount = 0`; every comparison is false); both cases are spelled out
here because `ℚ` has no infinities. -/
def joinsCurrent (expSeg unitCount lastLen len : Nat) : Prop :=
  if expSeg = 0 then unitCount ≠ 0
  else ((lastLen + len : ℚ) < (unitCount : ℚ) / (expSeg : ℚ))

instance (expSeg unitCount lastLen len : Nat) :
    Decidable (joinsCurrent expSeg unitCount lastLen len) := by
  unfold joinsCurrent
  split <;> infer_instance

/-- Operation `lastSegment.push(segment)` on the accumulator: append a line to the
final group of the group list. -/
def appendToLast : List LineGroup → Line → List LineGroup
  | [], l => [[l]]
  | [g], l => [g ++ [l]]
  | g :: g' :: gs, l => g :: appendToLast (g' :: gs) l

/-- One step of the `reduce` that builds the initial groups: a line joins
the current (last) group when the combined unit length stays below the
ideal segment length, and otherwise starts a new group. -/
def buildStep (expSeg unitCount : Nat) (gs : List LineGroup) (l : Line) :
    List LineGroup :=
  if joinsCurrent expSeg unitCount (groupUnits (gs.getLastD [])) l.2 then
    appendToLast gs l
  else gs ++ [[l]]

/-- The initial grouping pass of `splitTranscription`: the `reduce` over
the normalized lines, seeded with one empty group (`[[]]`). -/
def buildGroups (expSeg unitCount : Nat) (lines : List Line) : List LineGroup :=
  lines.foldl (buildStep expSeg unitCount) [[]]

/-- The `while` loop of the refinement pass, at one group.  `g` is the
group under refinement (`segments[i]`), `next?` the group after it if any.
While the re-estimated token count of `g` exceeds the threshold: a
single-line group is kept (with a warning in the source); otherwise the
last line of `g` is popped and unshifted onto the front of the next group,
a new trailing group being created on the first pop when none exists. -/
def whileRefine (countTokens : String → Nat) (thr : ℚ) (g : LineGroup)
    (next? : Option LineGroup) : LineGroup × Option LineGroup :=
  if (countTokens (joinGroup g) : ℚ) > thr then
    if g.length = 1 then (g, next?)
    else
      match g with
      | [] => ([], next?)
      | a :: as =>
        whileRefine countTokens thr (a :: as).dropLast
          (some ((a :: as).getLast (List.cons_ne_nil a as) :: next?.getD []))
  else (g, next?)
termination_by g.length
decreasing_by
  simp [List.length_dropLast]

/-- The refinement `while` loop moves lines between the group and its
successor but never duplicates or drops one: the concatenation of the
refined group and the (possibly created) successor equals the
concatenation of the inputs. -/
theorem whileRefine_append (countTokens : String → Nat) (thr : ℚ) :
    ∀ (g : LineGroup) (next? : Option LineGroup),
      (whileRefine countTokens thr g next?).1 ++
          ((whileRefine countTokens thr g next?).2.getD []) =
        g ++ next?.getD [] := by
  intro g next?
  induction g, next? using whileRefine.induct countTokens thr with
  | case1 g next? h hlen1 =>
    rw [whileRefine.eq_def, if_pos h, if_pos hlen1]
  | case2 next? h hlen =>
    rw [whileRefine.eq_def, if_pos h, if_neg hlen]
  | case3 next? a as h hlen ih =>
    rw [whileRefine.eq_def, if_pos h, if_neg hlen]
    have hlast := List.dropLast_append_getLast (List.cons_ne_nil a as)
    calc (whileRefine countTokens thr (a :: as).dropLast
            (some ((a :: as).getLast (List.cons_ne_nil a as) :: next?.getD []))).1 ++
          ((whileRefine countTokens thr (a :: as).dropLast
            (some ((a :: as).getLast (List.cons_ne_nil a as) :: next?.getD []))).2.getD [])
        = (a :: as).dropLast ++
            ((a :: as).getLast (List.cons_ne_nil a as) :: next?.getD []) := ih
      _ = ((a :: as).dropLast ++ [(a :: as).getLast (List.cons_ne_nil a as)]) ++
            next?.getD [] := by simp
      _ = (a :: as) ++ next?.getD [] := by rw [hlast]
  | case4 g next? h =>
    rw [whileRefine.eq_def, if_neg h]

/-- If the refinement loop returns no successor group, it did nothing: no
successor existed and the group is unchanged. -/
theorem whileRefine_none (countTokens : String → Nat) (thr : ℚ) :
    ∀ (g : LineGroup) (next? : Option LineGroup),
      (whileRefine countTokens thr g next?).2 = none →
        (whileRefine countTokens thr g next?).1 = g ∧ next? = none := by
  intro g next?
  induction g, next? using whileRefine.induct countTokens thr with
  | case1 g next? h hlen1 =>
    rw [whileRefine.eq_def, if_pos h, if_pos hlen1]
    exact fun hn => ⟨rfl, hn⟩
  | case2 next? h hlen =>
    rw [whileRefine.eq_def, if_pos h, if_neg hlen]
    exact fun hn => ⟨rfl, hn⟩
  | case3 next? a as h hlen ih =>
    rw [whileRefine.eq_def, if_pos h, if_neg hlen]
    intro hn
    exact absurd ((ih hn).2) (by simp)
  | case4 g next? h =>
    rw [whileRefine.eq_def, if_neg h]
    exact fun hn => ⟨rfl, hn⟩

/-- The refinement loop keeps a nonempty group nonempty: pops stop at one
line. -/
theorem whileRefine_ne_nil (countTokens : String → Nat) (thr : ℚ) :
    ∀ (g : LineGroup) (next? : Option LineGroup), g ≠ [] →
      (whileRefine countTokens thr g next?).1 ≠ [] := by
  intro g next?
  induction g, next? using whileRefine.induct countTokens thr with
  | case1 g next? h hlen1 =>
    rw [whileRefine.eq_def, if_pos h, if_pos hlen1]
    exact fun hg => hg
  | case2 next? h hlen =>
    rw [whileRefine.eq_def, if_pos h, if_neg hlen]
    exact fun hg => hg
  | case3 next? a as h hlen ih =>
    rw [whileRefine.eq_def, if_pos h, if_neg hlen]
    intro _
    apply ih
    have has : as ≠ [] := fun hc => hlen (by simp [hc])
    rw [List.dropLast_cons_of_ne_nil has]
    exact List.cons_ne_nil a _
  | case4 g next? h =>
    rw [whileRefine.eq_def, if_neg h]
    exact fun hg => hg

/-- When no successor group existed and the loop created one, at least one
line stayed behind in the refined group. -/
theorem whileRefine_created (countTokens : String → Nat) (thr : ℚ)
    (g : LineGroup) (m : LineGroup)
    (hm : (whileRefine countTokens thr g none).2 = some m) :
    1 ≤ (whileRefine countTokens thr g none).1.length := by
  rw [whileRefine.eq_def] at hm ⊢
  by_cases h : (countTokens (joinGroup g) : ℚ) > thr
  · rw [if_pos h] at hm ⊢
    by_cases h1 : g.length = 1
    · rw [if_pos h1] at hm
      exact absurd hm (by simp)
    · rw [if_neg h1] at hm ⊢
      match g, h1 with
      | [], h1 => exact absurd hm (by simp)
      | a :: as, h1 =>
        have has : as ≠ [] := fun hc => h1 (by simp [hc])
        have hd : (a :: as).dropLast ≠ [] := by
          rw [List.dropLast_cons_of_ne_nil has]
          exact List.cons_ne_nil a _
        exact List.length_pos.mpr (whileRefine_ne_nil countTokens thr _ _ hd)
  · rw [if_neg h] at hm
    exact absurd hm (by simp)

/-- If a successor group exists, the refinement loop never removes it. -/
theorem whileRefine_some (countTokens : String → Nat) (thr : ℚ)
    (g : LineGroup) (n : LineGroup) :
    (whileRefine countTokens thr g (some n)).2 ≠ none := by
  intro hn
  exact absurd (whileRefine_none countTokens thr g (some n) hn).2 (by simp)

/-- The refined group, if it still has at least two lines, meets the token
threshold: the loop only stops early on groups of at most one line. -/
theorem whileRefine_bound (countTokens : String → Nat) (thr : ℚ) :
    ∀ (g : LineGroup) (next? : Option LineGroup),
      2 ≤ (whileRefine countTokens thr g next?).1.length →
        ¬((countTokens (joinGroup (whileRefine countTokens thr g next?).1) : ℚ)
            > thr) := by
  intro g next?
  induction g, next? using whileRefine.induct countTokens thr with
  | case1 g next? h hlen1 =>
    rw [whileRefine.eq_def, if_pos h, if_pos hlen1]
    intro h2
    simp only at h2
    omega
  | case2 next? h hlen =>
    rw [whileRefine.eq_def, if_pos h, if_neg hlen]
    intro h2
    simp at h2
  | case3 next? a as h hlen ih =>
    rw [whileRefine.eq_def, if_pos h, if_neg hlen]
    exact ih
  | case4 g next? h =>
    rw [whileRefine.eq_def, if_neg h]
    exact fun _ => h

/-- Any successor group the refinement loop hands back is nonempty,
provided an existing successor was nonempty to begin with. -/
theorem whileRefine_next_ne_nil (countTokens : String → Nat) (thr : ℚ) :
    ∀ (g : LineGroup) (next? : Option LineGroup),
      (∀ n, next? = some n → n ≠ []) →
        ∀ m, (whileRefine countTokens thr g next?).2 = some m → m ≠ [] := by
  intro g next?
  induction g, next? using whileRefine.induct countTokens thr with
  | case1 g next? h hlen1 =>
    rw [whileRefine.eq_def, if_pos h, if_pos hlen1]
    exact fun hne => hne
  | case2 next? h hlen =>
    rw [whileRefine.eq_def, if_pos h, if_neg hlen]
    exact fun hne => hne
  | case3 next? a as h hlen ih =>
    rw [whileRefine.eq_def, if_pos h, if_neg hlen]
    intro _
    apply ih
    intro n hn
    cases hn
    exact List.cons_ne_nil _ _
  | case4 g next? h =>
    rw [whileRefine.eq_def, if_neg h]
    exact fun hne => hne

/-- The tail of the outer refinement loop once the group under refinement
is the last one (`segments[i+1]` does not exist): the `while` loop may
push a new trailing group, which the outer loop visits next, again as a
last group.  The recursion terminates because each created trailing group
holds strictly fewer lines. -/
def refineCascade (countTokens : String → Nat) (thr : ℚ) (g : LineGroup) :
    List LineGroup :=
  if h : (whileRefine countTokens thr g none).2 = none then
    [(whileRefine countTokens thr g none).1]
  else
    (whileRefine countTokens thr g none).1 ::
      refineCascade countTokens thr
        ((whileRefine countTokens thr g none).2.getD [])
termination_by g.length
decreasing_by
  obtain ⟨m, hm⟩ := Option.ne_none_iff_exists'.mp h
  have h1 := whileRefine_created countTokens thr g m hm
  have h2 := congrArg List.length (whileRefine_append countTokens thr g none)
  simp [hm] at h2 ⊢
  omega

/-- The outer `for` loop of the refinement pass.  `g` is `segments[i]`,
`rest` the groups after it.  While a successor exists, the `while` loop at
`g` may move trailing lines onto the front of that successor, which is
then refined next; once `g` is the last group, `refineCascade` finishes
the pass. -/
def refineAll (countTokens : String → Nat) (thr : ℚ) :
    LineGroup → List LineGroup → List LineGroup
  | g, [] => refineCascade countTokens thr g
  | g, r :: rs =>
    (whileRefine countTokens thr g (some r)).1 ::
      refineAll countTokens thr
        ((whileRefine countTokens thr g (some r)).2.getD r) rs

/-- The group list produced by `splitTranscription` just before the final
`join("\n")`: the greedy grouping pass over the normalized lines followed
by the token-bound refinement pass. -/
def splitTranscriptionGroups (countTokens segmenterCount : String → Nat)
    (model : ModelKey) (transcription : String) : List LineGroup :=
  match buildGroups (expectedSegmentsOf model (countTokens transcription))
      (segmenterCount transcription)
      ((normalizedLines transcription).map (fun l => (l, segmenterCount l))) with
  | [] => []
  | g :: rest => refineAll countTokens (refineThreshold model) g rest

/-- Function `splitTranscription` of `src/ai.ts`, with the token estimator
(`countTokens`, assumed here to be a pure deterministic function) and the
locale-aware segmenter unit counter passed as parameters. -/
def splitTranscription (countTokens segmenterCount : String → Nat)
    (model : ModelKey) (transcription : String) : List String :=
  (splitTranscriptionGroups countTokens segmenterCount model
    transcription).map joinGroup

/-- The cascade conserves the lines of its group. -/
theorem refineCascade_flatten (countTokens : String → Nat) (thr : ℚ) :
    ∀ (g : LineGroup), (refineCascade countTokens thr g).flatten = g := by
  intro g
  induction g using refineCascade.induct countTokens thr with
  | case1 x h =>
    rw [refineCascade, dif_pos h]
    have ha := whileRefine_append countTokens thr x none
    simp [h] at ha
    simp [ha]
  | case2 x h ih =>
    rw [refineCascade, dif_neg h]
    have ha := whileRefine_append countTokens thr x none
    obtain ⟨m, hm⟩ := Option.ne_none_iff_exists'.mp h
    rw [hm] at ih
    simp only [Option.getD_some] at ih
    simp [hm] at ha ⊢
    rw [ih]
    simpa using ha

/-- Every group the cascade emits with at least two lines meets the token
threshold. -/
theorem refineCascade_bound (countTokens : String → Nat) (thr : ℚ) :
    ∀ (g : LineGroup), ∀ x ∈ refineCascade countTokens thr g,
      2 ≤ x.length →
        ¬((countTokens (joinGroup x) : ℚ) > thr) := by
  intro g
  induction g using refineCascade.induct countTokens thr with
  | case1 x h =>
    rw [refineCascade, dif_pos h]
    intro y hy
    rw [List.mem_singleton] at hy
    subst hy
    exact whileRefine_bound countTokens thr x none
  | case2 x h ih =>
    rw [refineCascade, dif_neg h]
    intro y hy
    rcases List.mem_cons.mp hy with hy | hy
    · subst hy
      exact whileRefine_bound countTokens thr x none
    · exact ih y hy

/-- Every group the cascade emits is nonempty, provided its input group
is. -/
theorem refineCascade_ne_nil (countTokens : String → Nat) (thr : ℚ) :
    ∀ (g : LineGroup), g ≠ [] →
      ∀ x ∈ refineCascade countTokens thr g, x ≠ [] := by
  intro g
  induction g using refineCascade.induct countTokens thr with
  | case1 x h =>
    rw [refineCascade, dif_pos h]
    intro hx y hy
    rw [List.mem_singleton] at hy
    subst hy
    exact whileRefine_ne_nil countTokens thr x none hx
  | case2 x h ih =>
    rw [refineCascade, dif_neg h]
    intro hx y hy
    obtain ⟨m, hm⟩ := Option.ne_none_iff_exists'.mp h
    rcases List.mem_cons.mp hy with hy | hy
    · subst hy
      exact whileRefine_ne_nil countTokens thr x none hx
    · have hmne : m ≠ [] :=
        whileRefine_next_ne_nil countTokens thr x none (by simp) m hm
      rw [hm] at hy ih
      simp only [Option.getD_some] at hy ih
      exact ih hmne y hy

/-- Every group after the first one that the cascade emits is nonempty. -/
theorem refineCascade_tail_ne_nil (countTokens : String → Nat) (thr : ℚ) :
    ∀ (g : LineGroup),
      ∀ x ∈ (refineCascade countTokens thr g).tail, x ≠ [] := by
  intro g
  by_cases h : (whileRefine countTokens thr g none).2 = none
  · rw [refineCascade, dif_pos h]
    intro y hy
    simp at hy
  · rw [refineCascade, dif_neg h]
    intro y hy
    obtain ⟨m, hm⟩ := Option.ne_none_iff_exists'.mp h
    have hmne : m ≠ [] :=
      whileRefine_next_ne_nil countTokens thr g none (by simp) m hm
    rw [List.tail_cons, hm] at hy
    exact refineCascade_ne_nil countTokens thr m hmne y hy

/-- The outer refinement loop conserves all lines, in order. -/
theorem refineAll_flatten (countTokens : String → Nat) (thr : ℚ) :
    ∀ (rest : List LineGroup) (g : LineGroup),
      (refineAll countTokens thr g rest).flatten = g ++ rest.flatten := by
  intro rest
  induction rest with
  | nil =>
    intro g
    simp [refineAll, refineCascade_flatten]
  | cons r rs ih =>
    intro g
    rw [refineAll]
    have hs := whileRefine_some countTokens thr g r
    obtain ⟨m, hm⟩ := Option.ne_none_iff_exists'.mp hs
    have ha := whileRefine_append countTokens thr g (some r)
    rw [hm] at ha
    simp only [Option.getD_some] at ha
    simp only [List.flatten_cons, hm, Option.getD_some, ih]
    rw [← List.append_assoc, ha]
    simp

/-- Every group the refinement pass emits with at least two lines meets
the token threshold. -/
theorem refineAll_bound (countTokens : String → Nat) (thr : ℚ) :
    ∀ (rest : List LineGroup) (g : LineGroup),
      ∀ x ∈ refineAll countTokens thr g rest,
        2 ≤ x.length →
          ¬((countTokens (joinGroup x) : ℚ) > thr) := by
  intro rest
  induction rest with
  | nil =>
    intro g
    exact refineCascade_bound countTokens thr g
  | cons r rs ih =>
    intro g y hy
    rw [refineAll] at hy
    rcases List.mem_cons.mp hy with hy | hy
    · subst hy
      exact whileRefine_bound countTokens thr g (some r)
    · exact ih _ y hy

/-- Every group the refinement pass emits is nonempty, provided its inputs
are. -/
theorem refineAll_ne_nil (countTokens : String → Nat) (thr : ℚ) :
    ∀ (rest : List LineGroup) (g : LineGroup), g ≠ [] →
      (∀ r ∈ rest, r ≠ []) →
      ∀ x ∈ refineAll countTokens thr g rest, x ≠ [] := by
  intro rest
  induction rest with
  | nil =>
    intro g hg _
    exact refineCascade_ne_nil countTokens thr g hg
  | cons r rs ih =>
    intro g hg hrest y hy
    rw [refineAll] at hy
    have hs := whileRefine_some countTokens thr g r
    obtain ⟨m, hm⟩ := Option.ne_none_iff_exists'.mp hs
    rcases List.mem_cons.mp hy with hy | hy
    · subst hy
      exact whileRefine_ne_nil countTokens thr g (some r) hg
    · have hmne : m ≠ [] :=
        whileRefine_next_ne_nil countTokens thr g (some r)
          (fun n hn => by cases hn; exact hrest r (List.mem_cons_self r rs)) m hm
      rw [hm] at hy
      simp only [Option.getD_some] at hy
      exact ih m hmne (fun x hx => hrest x (List.mem_cons_of_mem r hx)) y hy

/-- Every group after the first one that the refinement pass emits is
nonempty, provided the input groups after the first are. -/
theorem refineAll_tail_ne_nil (countTokens : String → Nat) (thr : ℚ)
    (rest : List LineGroup) (g : LineGroup)
    (hrest : ∀ r ∈ rest, r ≠ []) :
    ∀ x ∈ (refineAll countTokens thr g rest).tail, x ≠ [] := by
  cases rest with
  | nil =>
    exact refineCascade_tail_ne_nil countTokens thr g
  | cons r rs =>
    rw [refineAll, List.tail_cons]
    have hs := whileRefine_some countTokens thr g r
    obtain ⟨m, hm⟩ := Option.ne_none_iff_exists'.mp hs
    have hmne : m ≠ [] :=
      whileRefine_next_ne_nil countTokens thr g (some r)
        (fun n hn => by cases hn; exact hrest r (List.mem_cons_self r rs)) m hm
    rw [hm]
    simp only [Option.getD_some]
    exact refineAll_ne_nil countTokens thr rs m hmne
      (fun x hx => hrest x (List.mem_cons_of_mem r hx))

/-- Pushing a line onto the final group appends it to the flattened line
sequence. -/
theorem appendToLast_flatten (l : Line) :
    ∀ (gs : List LineGroup), (appendToLast gs l).flatten = gs.flatten ++ [l] := by
  intro gs
  induction gs with
  | nil => simp [appendToLast]
  | cons g gs ih =>
    cases gs with
    | nil => simp [appendToLast]
    | cons g' gs' => simp [appendToLast, ih]

/-- Pushing a line onto the final group keeps the group count. -/
theorem appendToLast_length (l : Line) :
    ∀ (gs : List LineGroup), (appendToLast gs l).length = max 1 gs.length := by
  intro gs
  induction gs with
  | nil => simp [appendToLast]
  | cons g gs ih =>
    cases gs with
    | nil => simp [appendToLast]
    | cons g' gs' =>
      simp [appendToLast] at ih ⊢
      omega

/-- The grouping pass emits every line it is given, in order, after the
seed's single empty group. -/
theorem buildGroups_flatten (expSeg unitCount : Nat) :
    ∀ (lines : List Line) (gs : List LineGroup),
      (List.foldl (buildStep expSeg unitCount) gs lines).flatten =
        gs.flatten ++ lines := by
  intro lines
  induction lines with
  | nil => simp
  | cons l rest ih =>
    intro gs
    rw [List.foldl_cons, ih]
    unfold buildStep
    split
    · rw [appendToLast_flatten]
      simp
    · simp

/-- Groups other than the first produced by pushing a line stay
nonempty. -/
theorem appendToLast_mem_ne_nil (l : Line) :
    ∀ (gs : List LineGroup), (∀ x ∈ gs, x ≠ []) →
      ∀ x ∈ appendToLast gs l, x ≠ [] := by
  intro gs
  induction gs with
  | nil =>
    intro _ x hx
    rw [appendToLast] at hx
    rw [List.mem_singleton] at hx
    subst hx
    exact List.cons_ne_nil l []
  | cons g gs ih =>
    cases gs with
    | nil =>
      intro _ x hx
      rw [appendToLast] at hx
      rw [List.mem_singleton] at hx
      subst hx
      simp
    | cons g' gs' =>
      intro hgs x hx
      rw [appendToLast] at hx
      rcases List.mem_cons.mp hx with hx | hx
      · subst hx
        exact hgs x (List.mem_cons_self _ _)
      · exact ih (fun y hy => hgs y (List.mem_cons_of_mem g hy)) x hx

/-- Pushing a line keeps all groups after the first nonempty. -/
theorem appendToLast_tail_ne_nil (l : Line) :
    ∀ (gs : List LineGroup), (∀ x ∈ gs.tail, x ≠ []) →
      ∀ x ∈ (appendToLast gs l).tail, x ≠ [] := by
  intro gs
  cases gs with
  | nil =>
    intro _ x hx
    rw [appendToLast] at hx
    simp at hx
  | cons g gs =>
    cases gs with
    | nil =>
      intro _ x hx
      rw [appendToLast] at hx
      simp at hx
    | cons g' gs' =>
      intro hgs x hx
      rw [appendToLast, List.tail_cons] at hx
      refine appendToLast_mem_ne_nil l (g' :: gs') ?_ x hx
      simpa using hgs

/-- The grouping pass keeps all groups after the first (the seed's empty
group) nonempty. -/
theorem buildGroups_foldl_tail_ne_nil (expSeg unitCount : Nat) :
    ∀ (lines : List Line) (gs : List LineGroup),
      (∀ x ∈ gs.tail, x ≠ []) →
      ∀ x ∈ (List.foldl (buildStep expSeg unitCount) gs lines).tail, x ≠ [] := by
  intro lines
  induction lines with
  | nil => exact fun gs h => h
  | cons l rest ih =>
    intro gs hgs
    rw [List.foldl_cons]
    apply ih
    unfold buildStep
    split
    · exact appendToLast_tail_ne_nil l gs hgs
    · intro x hx
      cases gs with
      | nil => simp at hx
      | cons g gs' =>
        rw [List.cons_append, List.tail_cons] at hx
        rcases List.mem_append.mp hx with hx | hx
        · exact hgs x hx
        · rw [List.mem_singleton] at hx
          subst hx
          exact List.cons_ne_nil l []

/-- The grouping pass never returns an empty group list. -/
theorem buildGroups_ne_nil (expSeg unitCount : Nat) :
    ∀ (lines : List Line) (gs : List LineGroup), gs ≠ [] →
      List.foldl (buildStep expSeg unitCount) gs lines ≠ [] := by
  intro lines
  induction lines with
  | nil => exact fun gs h => h
  | cons l rest ih =>
    intro gs hgs
    rw [List.foldl_cons]
    apply ih
    unfold buildStep
    split
    · intro hc
      have := congrArg List.length hc
      rw [appendToLast_length] at this
      simp at this
    · simp

/-- Once the group list has at least two groups, further lines never touch
the first group. -/
theorem buildGroups_foldl_head (expSeg unitCount : Nat) :
    ∀ (lines : List Line) (gs : List LineGroup), 2 ≤ gs.length →
      (List.foldl (buildStep expSeg unitCount) gs lines).head? = gs.head? ∧
        2 ≤ (List.foldl (buildStep expSeg unitCount) gs lines).length := by
  intro lines
  induction lines with
  | nil => exact fun gs h => ⟨rfl, h⟩
  | cons l rest ih =>
    intro gs hgs
    rw [List.foldl_cons]
    have hstep : (buildStep expSeg unitCount gs l).head? = gs.head? ∧
        2 ≤ (buildStep expSeg unitCount gs l).length := by
      unfold buildStep
      split
      · constructor
        · match gs, hgs with
          | g :: g' :: gs', _ => rw [appendToLast]; simp
        · rw [appendToLast_length]; omega
      · constructor
        · match gs, hgs with
          | g :: g' :: gs', _ => simp
        · simp; omega
    obtain ⟨ih1, ih2⟩ := ih (buildStep expSeg unitCount gs l) hstep.2
    exact ⟨ih1.trans hstep.1, ih2⟩

/-- Unfolding lemma for `joinSep` on a two-or-more-element list. -/
theorem joinSep_cons₂ (sep x y : String) (xs : List String) :
    joinSep sep (x :: y :: xs) = x ++ sep ++ joinSep sep (y :: xs) := rfl

/-- Unfolding lemma for `joinSep` on a singleton. -/
theorem joinSep_singleton (sep x : String) : joinSep sep [x] = x := rfl

/-- Joining a concatenation of two nonempty lists inserts one separator at
the seam. -/
theorem joinSep_append (sep : String) :
    ∀ (a b : List String), a ≠ [] → b ≠ [] →
      joinSep sep (a ++ b) = joinSep sep a ++ sep ++ joinSep sep b := by
  intro a
  induction a with
  | nil => intro b ha _; exact absurd rfl ha
  | cons x xs ih =>
    intro b _ hb
    cases xs with
    | nil =>
      cases b with
      | nil => exact absurd rfl hb
      | cons y ys => simp [joinSep_cons₂, joinSep_singleton]
    | cons y ys =>
      rw [List.cons_append, List.cons_append, joinSep_cons₂,
        ← List.cons_append, ih b (List.cons_ne_nil y ys) hb, joinSep_cons₂]
      simp [String.append_assoc]

/-- Joining the per-group joins equals joining the flattened lines,
provided no group is empty. -/
theorem joinSep_flatten (sep : String) :
    ∀ (gs : List (List String)), (∀ g ∈ gs, g ≠ []) →
      joinSep sep (gs.map (joinSep sep)) = joinSep sep gs.flatten := by
  intro gs
  induction gs with
  | nil => intro _; rfl
  | cons g gs ih =>
    intro hne
    cases gs with
    | nil => simp [joinSep]
    | cons g' gs' =>
      have hg : g ≠ [] := hne g (List.mem_cons_self _ _)
      have hrest : ∀ x ∈ g' :: gs', x ≠ [] :=
        fun x hx => hne x (List.mem_cons_of_mem g hx)
      have hflat : (g' :: gs').flatten ≠ [] := by
        rw [List.flatten_ne_nil_iff]
        exact ⟨g', List.mem_cons_self _ _, hrest g' (List.mem_cons_self _ _)⟩
      rw [List.map_cons, List.map_cons, joinSep_cons₂, ← List.map_cons,
        List.flatten_cons, joinSep_append sep g (g' :: gs').flatten hg hflat,
        ih hrest]

/-- The refinement `while` loop leaves an empty group untouched (the
source's `pop()` returns `undefined` and the loop breaks). -/
theorem whileRefine_nil (countTokens : String → Nat) (thr : ℚ)
    (next? : Option LineGroup) :
    whileRefine countTokens thr [] next? = ([], next?) := by
  rw [whileRefine.eq_def]
  split
  · simp
  · rfl

/-- A total token estimate within the input budget
(`maxOutputTokens * maxInputTokensRatio`) yields an expected segment count
of at most one. -/
theorem expectedSegmentsOf_le_one (model : ModelKey) (tokens : Nat)
    (h : (tokens : ℚ) ≤ (maxOutputTokens model : ℚ) * maxInputTokensRatio) :
    expectedSegmentsOf model tokens ≤ 1 := by
  unfold expectedSegmentsOf
  have hB : (0 : ℚ) < (maxOutputTokens model : ℚ) * maxInputTokensRatio := by
    cases model <;> norm_num [maxOutputTokens, maxInputTokensRatio]
  have hq : (tokens : ℚ) / ((maxOutputTokens model : ℚ) * maxInputTokensRatio)
      ≤ 1 := (div_le_one hB).mpr h
  rw [Int.toNat_le]
  exact Int.ceil_le.mpr (by exact_mod_cast hq)

/-- When at most one segment is expected and the total unit count strictly
dominates the accumulated units, every line joins the single open group:
the greedy pass returns one group holding all lines. -/
theorem buildGroups_single (expSeg unitCount : Nat) (he : expSeg ≤ 1) :
    ∀ (lines : List Line) (g : LineGroup),
      groupUnits g + (lines.map Prod.snd).sum < unitCount →
      List.foldl (buildStep expSeg unitCount) [g] lines = [g ++ lines] := by
  intro lines
  induction lines with
  | nil => intro g _; simp
  | cons l rest ih =>
    intro g hu
    rw [List.foldl_cons]
    have hjoin : joinsCurrent expSeg unitCount
        (groupUnits (([g] : List LineGroup).getLastD [])) l.2 := by
      have hlast : ([g] : List LineGroup).getLastD [] = g := rfl
      rw [hlast]
      unfold joinsCurrent
      rcases Nat.le_one_iff_eq_zero_or_eq_one.mp he with he0 | he1
      · rw [if_pos he0]
        simp [groupUnits] at hu
        omega
      · rw [he1, if_neg one_ne_zero]
        have h1 : groupUnits g + l.2 < unitCount := by
          simp [List.map_cons, List.sum_cons] at hu
          omega
        push_cast
        rw [div_one]
        exact_mod_cast h1
    have hstep : buildStep expSeg unitCount [g] l = [g ++ [l]] := by
      unfold buildStep
      rw [if_pos hjoin]
      rfl
    rw [hstep, ih (g ++ [l]) (by
      have hu' : groupUnits g + (l.2 + (rest.map Prod.snd).sum) < unitCount := by
        simpa [List.map_cons, List.sum_cons] using hu
      simp only [groupUnits, List.map_append, List.sum_append, List.map_cons,
        List.map_nil, List.sum_cons, List.sum_nil] at hu' ⊢
      omega)]
    simp

/-- Under the trivial-input hypotheses (token estimate within the input
budget, all lines jointly shorter than the whole text's unit count), the
segmenter produces exactly one group holding every normalized line. -/
theorem splitTranscriptionGroups_single (countTokens segmenterCount : String → Nat)
    (model : ModelKey) (t : String)
    (hunits : ((normalizedLines t).map segmenterCount).sum < segmenterCount t)
    (htok : (countTokens t : ℚ) ≤ (maxOutputTokens model : ℚ) * maxInputTokensRatio)
    (hthr : ¬((countTokens (joinSep "\n" (normalizedLines t)) : ℚ) >
        refineThreshold model)) :
    splitTranscriptionGroups countTokens segmenterCount model t =
      [(normalizedLines t).map (fun l => (l, segmenterCount l))] := by
  have he := expectedSegmentsOf_le_one model (countTokens t) htok
  have hsum : (((normalizedLines t).map (fun l => (l, segmenterCount l))).map
      Prod.snd).sum = ((normalizedLines t).map segmenterCount).sum := by
    rw [List.map_map,
      show (Prod.snd ∘ fun l => (l, segmenterCount l)) = segmenterCount from rfl]
  have hb : buildGroups (expectedSegmentsOf model (countTokens t))
      (segmenterCount t)
      ((normalizedLines t).map (fun l => (l, segmenterCount l))) =
      [(normalizedLines t).map (fun l => (l, segmenterCount l))] := by
    unfold buildGroups
    have := buildGroups_single (expectedSegmentsOf model (countTokens t))
      (segmenterCount t) he
      ((normalizedLines t).map (fun l => (l, segmenterCount l))) []
      (by rw [hsum]; simpa [groupUnits] using hunits)
    simpa using this
  unfold splitTranscriptionGroups
  rw [hb]
  have hjg : joinGroup ((normalizedLines t).map (fun l => (l, segmenterCount l)))
      = joinSep "\n" (normalizedLines t) := by
    unfold joinGroup
    congr 1
    rw [List.map_map,
      show (Prod.fst ∘ fun l => (l, segmenterCount l)) = id from rfl,
      List.map_id]
  show refineAll countTokens (refineThreshold model)
      ((normalizedLines t).map (fun l => (l, segmenterCount l))) [] = _
  rw [refineAll]
  have hw : whileRefine countTokens (refineThreshold model)
      ((normalizedLines t).map (fun l => (l, segmenterCount l))) none =
      ((normalizedLines t).map (fun l => (l, segmenterCount l)), none) := by
    rw [whileRefine.eq_def, hjg, if_neg hthr]
  rw [refineCascade, dif_pos (by rw [hw])]
  rw [hw]

/-- The expected segment count for a one-token transcription under the
GPT-4 budget. -/
theorem expectedSegmentsOf_gpt4_one : expectedSegmentsOf ModelKey.gpt4 1 = 1 := by
  unfold expectedSegmentsOf
  rw [show ((1 : Nat) : ℚ) / ((maxOutputTokens ModelKey.gpt4 : ℚ) *
      maxInputTokensRatio) = 5 / 8192 by
    norm_num [maxOutputTokens, maxInputTokensRatio]]
  rw [show ⌈(5 / 8192 : ℚ)⌉ = 1 from by
    rw [Int.ceil_eq_iff] <;> norm_num]
  rfl

/-- Concrete run of the segmenter on the one-line input `"a"` with the
string-length estimator and unit counter: the seed's empty group survives,
and the output is `["", "a"]`. -/
theorem splitTranscription_single_line_a :
    splitTranscription String.length String.length ModelKey.gpt4 "a" =
      ["", "a"] := by
  have hnorm : normalizedLines "a" = ["a"] := by decide
  have hlen : String.length "a" = 1 := by decide
  have hmap : (normalizedLines "a").map (fun l => (l, String.length l)) =
      [("a", 1)] := by rw [hnorm]; rfl
  have hnj : ¬ joinsCurrent 1 1 0 1 := by
    unfold joinsCurrent
    rw [if_neg one_ne_zero]
    norm_num
  have hbuild : buildGroups (expectedSegmentsOf ModelKey.gpt4
      (String.length "a")) (String.length "a")
      ((normalizedLines "a").map (fun l => (l, String.length l))) =
      [[], [("a", 1)]] := by
    rw [hmap, hlen, expectedSegmentsOf_gpt4_one]
    unfold buildGroups
    rw [List.foldl_cons, List.foldl_nil]
    unfold buildStep
    rw [show groupUnits (([[]] : List LineGroup).getLastD []) = 0 from rfl]
    rw [show (("a", 1) : Line).2 = 1 from rfl, if_neg hnj]
    rfl
  have hwr : whileRefine String.length (refineThreshold ModelKey.gpt4)
      [("a", 1)] none = ([("a", 1)], none) := by
    rw [whileRefine.eq_def]
    rw [if_neg (by
      rw [show joinGroup [("a", 1)] = "a" from rfl, hlen]
      norm_num [refineThreshold, maxOutputTokens, maxInputTokensRatio,
        tokenTolerance])]
  unfold splitTranscription splitTranscriptionGroups
  rw [hbuild]
  show (refineAll String.length (refineThreshold ModelKey.gpt4) []
      [[("a", 1)]]).map joinGroup = ["", "a"]
  rw [refineAll, whileRefine_nil]
  show (([] : LineGroup) :: refineAll String.length
      (refineThreshold ModelKey.gpt4) [("a", 1)] []).map joinGroup = ["", "a"]
  rw [refineAll, refineCascade, dif_pos (by rw [hwr]), hwr]
  rfl

/-- C2: token-bound postcondition of the refinement pass.  With the token
estimator modelled as a pure deterministic function, every line group the
segmenter returns that still holds at least two lines has an estimated
token count at most `maxOutputTokens * (0.4 + 0.05)`; only groups of at
most one line (kept with a warning in the source) may exceed the bound.
The chunks of `splitTranscription` are exactly the `joinGroup` images of
these groups, and the refinement loop's termination is witnessed by
`whileRefine` and `refineCascade` being total functions of this
development (their well-founded recursion mirrors the loop measure). -/
theorem splitTranscription_token_bound
    (countTokens segmenterCount : String → Nat) (model : ModelKey)
    (t : String) :
    ∀ g ∈ splitTranscriptionGroups countTokens segmenterCount model t,
      2 ≤ g.length →
        (countTokens (joinGroup g) : ℚ) ≤
          (maxOutputTokens model : ℚ) * (maxInputTokensRatio + tokenTolerance) := by
  intro g hg h2
  unfold splitTranscriptionGroups at hg
  rcases hB : buildGroups (expectedSegmentsOf model (countTokens t))
      (segmenterCount t)
      ((normalizedLines t).map (fun l => (l, segmenterCount l))) with _ | ⟨g0, rest⟩
  · rw [hB] at hg
    simp at hg
  · rw [hB] at hg
    simp only at hg
    have := refineAll_bound countTokens (refineThreshold model) rest g0 g hg h2
    rw [refineThreshold] at this
    exact le_of_not_lt this

/-- C2 witness: on the two-line input `"a\nb"` with the string-length
estimator and the Gemini model, the single returned group holds two lines
and meets the bound. -/
theorem splitTranscription_token_bound_witness :
    (String.length (joinGroup [("a", 1), ("b", 1)]) : ℚ) ≤
      (maxOutputTokens ModelKey.gemini : ℚ) *
        (maxInputTokensRatio + tokenTolerance) := by
  have hnorm : normalizedLines "a\nb" = ["a", "b"] := by decide
  have hgroups : splitTranscriptionGroups String.length String.length
      ModelKey.gemini "a\nb" = [[("a", 1), ("b", 1)]] := by
    rw [splitTranscriptionGroups_single String.length String.length
      ModelKey.gemini "a\nb"
      (by rw [hnorm]; decide)
      (by
        rw [show String.length "a\nb" = 3 from rfl]
        norm_num [maxOutputTokens, maxInputTokensRatio])
      (by
        rw [hnorm, show joinSep "\n" ["a", "b"] = "a\nb" from rfl,
          show String.length "a\nb" = 3 from rfl]
        norm_num [refineThreshold, maxOutputTokens, maxInputTokensRatio,
          tokenTolerance])]
    rw [hnorm]
    rfl
  exact splitTranscription_token_bound String.length String.length
    ModelKey.gemini "a\nb" [("a", 1), ("b", 1)]
    (by rw [hgroups]; exact List.mem_singleton.mpr rfl) (by decide)

/-- C1 counterexample: on the single-line input `"a"` (string-length
estimator and unit counter, GPT-4 budget) the segmenter returns
`["", "a"]`, and joining the chunks with the line separator gives
`"\na"`, not the input `"a"`: the round-trip law fails as stated. -/
theorem splitTranscription_round_trip_counterexample :
    ¬ (joinSep "\n" (splitTranscription String.length String.length
        ModelKey.gpt4 "a") = "a") := by
  rw [splitTranscription_single_line_a]
  decide

/-- C1 (amended): the chunks are the `joinGroup` images of a partition of
the normalized line sequence (input split on runs of newlines, blank
pieces dropped): flattening the groups reproduces exactly the normalized
lines in order, every group after the first is nonempty, and unless the
first group is the (possibly surviving) empty seed group, joining the
chunks with `"\n"` equals joining the normalized lines with `"\n"`.
Equality with the input itself fails in general: normalization and the
possible leading empty chunk are exactly the discrepancies. -/
theorem splitTranscription_round_trip
    (countTokens segmenterCount : String → Nat) (model : ModelKey)
    (t : String) :
    (((splitTranscriptionGroups countTokens segmenterCount model t).map
        (fun g => g.map Prod.fst)).flatten = normalizedLines t)
    ∧ splitTranscription countTokens segmenterCount model t =
        (splitTranscriptionGroups countTokens segmenterCount model t).map
          joinGroup
    ∧ (∀ g ∈ (splitTranscriptionGroups countTokens segmenterCount model
        t).tail, g ≠ [])
    ∧ ((splitTranscriptionGroups countTokens segmenterCount model t).head? =
          some [] ∨
        joinSep "\n" (splitTranscription countTokens segmenterCount model t) =
          joinSep "\n" (normalizedLines t)) := by
  have hflat : ((splitTranscriptionGroups countTokens segmenterCount model
      t).map (fun g => g.map Prod.fst)).flatten = normalizedLines t := by
    unfold splitTranscriptionGroups
    rcases hB : buildGroups (expectedSegmentsOf model (countTokens t))
        (segmenterCount t)
        ((normalizedLines t).map (fun l => (l, segmenterCount l))) with _ | ⟨g0, rest⟩
    · exact absurd hB
        (buildGroups_ne_nil (expectedSegmentsOf model (countTokens t))
          (segmenterCount t) _ [[]] (by simp))
    · simp only
      rw [← List.map_flatten, refineAll_flatten]
      have hfl := buildGroups_flatten (expectedSegmentsOf model (countTokens t))
        (segmenterCount t)
        ((normalizedLines t).map (fun l => (l, segmenterCount l))) [[]]
      rw [show buildGroups (expectedSegmentsOf model (countTokens t))
          (segmenterCount t)
          ((normalizedLines t).map (fun l => (l, segmenterCount l))) =
          List.foldl (buildStep (expectedSegmentsOf model (countTokens t))
            (segmenterCount t)) [[]]
            ((normalizedLines t).map (fun l => (l, segmenterCount l)))
          from rfl] at hB
      rw [hB] at hfl
      rw [List.flatten_cons] at hfl
      rw [hfl]
      simp only [List.flatten, List.flatten_nil, List.nil_append]
      rw [List.map_map,
        show (Prod.fst ∘ fun l => (l, segmenterCount l)) = id from rfl,
        List.map_id]
  have htail : ∀ g ∈ (splitTranscriptionGroups countTokens segmenterCount
      model t).tail, g ≠ [] := by
    unfold splitTranscriptionGroups
    rcases hB : buildGroups (expectedSegmentsOf model (countTokens t))
        (segmenterCount t)
        ((normalizedLines t).map (fun l => (l, segmenterCount l))) with _ | ⟨g0, rest⟩
    · simp
    · simp only
      apply refineAll_tail_ne_nil
      have := buildGroups_foldl_tail_ne_nil (expectedSegmentsOf model
        (countTokens t)) (segmenterCount t)
        ((normalizedLines t).map (fun l => (l, segmenterCount l))) [[]]
        (by simp)
      rw [show buildGroups (expectedSegmentsOf model (countTokens t))
          (segmenterCount t)
          ((normalizedLines t).map (fun l => (l, segmenterCount l))) =
          List.foldl (buildStep (expectedSegmentsOf model (countTokens t))
            (segmenterCount t)) [[]]
            ((normalizedLines t).map (fun l => (l, segmenterCount l)))
          from rfl] at hB
      rw [hB] at this
      simpa using this
  refine ⟨hflat, rfl, htail, ?_⟩
  rcases hgroups : splitTranscriptionGroups countTokens segmenterCount model t
      with _ | ⟨gh, gt⟩
  · right
    rw [hgroups] at hflat
    unfold splitTranscription
    rw [hgroups, ← hflat]
    rfl
  · by_cases hgh : gh = []
    · left
      subst hgh
      rfl
    · right
      rw [hgroups] at hflat htail
      unfold splitTranscription
      rw [hgroups]
      have hnon : ∀ x ∈ (gh :: gt).map (fun g => g.map Prod.fst), x ≠ [] := by
        intro x hx
        rcases List.mem_map.mp hx with ⟨g, hgmem, hgx⟩
        subst hgx
        rcases List.mem_cons.mp hgmem with hgm | hgm
        · subst hgm
          simpa using hgh
        · have := htail g (by simpa using hgm)
          simpa using this
      have hmm : (gh :: gt).map joinGroup =
          ((gh :: gt).map (fun g => g.map Prod.fst)).map (joinSep "\n") := by
        rw [List.map_map]
        rfl
      rw [hmm, joinSep_flatten "\n" _ hnon, hflat]

/-- C1 witness: on the two-line input `"a\nb"` the first group is
nonempty, so the amended round trip gives back the joined normalized
lines. -/
theorem splitTranscription_round_trip_witness :
    joinSep "\n" (splitTranscription String.length String.length
      ModelKey.gpt4 "a\nb") = joinSep "\n" (normalizedLines "a\nb") := by
  have hnorm : normalizedLines "a\nb" = ["a", "b"] := by decide
  have hgroups : splitTranscriptionGroups String.length String.length
      ModelKey.gpt4 "a\nb" = [[("a", 1), ("b", 1)]] := by
    rw [splitTranscriptionGroups_single String.length String.length
      ModelKey.gpt4 "a\nb"
      (by rw [hnorm]; decide)
      (by
        rw [show String.length "a\nb" = 3 from rfl]
        norm_num [maxOutputTokens, maxInputTokensRatio])
      (by
        rw [hnorm, show joinSep "\n" ["a", "b"] = "a\nb" from rfl,
          show String.length "a\nb" = 3 from rfl]
        norm_num [refineThreshold, maxOutputTokens, maxInputTokensRatio,
          tokenTolerance])]
    rw [hnorm]
    rfl
  rcases (splitTranscription_round_trip String.length String.length
      ModelKey.gpt4 "a\nb").2.2.2 with h | h
  · rw [hgroups] at h
    exact absurd h (by decide)
  · exact h

/-- C3 counterexample: the single-line input `"a"` is far under the GPT-4
budget (`1 ≤ 4096 * 0.4` estimated tokens), yet the segmenter returns two
chunks `["", "a"]` rather than the single chunk `["a"]`: the seed's empty
group survives because the only line's unit count already reaches the
ideal segment length (the comparison is strict). -/
theorem splitTranscription_trivial_counterexample :
    ((String.length "a" : ℚ) ≤
        (maxOutputTokens ModelKey.gpt4 : ℚ) * maxInputTokensRatio)
    ∧ splitTranscription String.length String.length ModelKey.gpt4 "a" ≠
        ["a"] := by
  constructor
  · rw [show String.length "a" = 1 from rfl]
    norm_num [maxOutputTokens, maxInputTokensRatio]
  · rw [splitTranscription_single_line_a]
    decide

/-- C3 (amended): the segmenter is idempotent on a trivial input provided
the input is in normal form (it equals its normalized lines joined by
`"\n"`), its normalized lines jointly count strictly fewer units than the
whole text (true of the source's `Intl.Segmenter` counts whenever there
are at least two lines, the newline separators counting as units, but
false for a single-line input), and its estimated token count is within
the input budget `maxOutputTokens * utilizationRatio`: then exactly one
chunk is returned and it equals the input text. -/
theorem splitTranscription_trivial_input
    (countTokens segmenterCount : String → Nat) (model : ModelKey)
    (t : String)
    (hnf : t = joinSep "\n" (normalizedLines t))
    (hunits : ((normalizedLines t).map segmenterCount).sum < segmenterCount t)
    (htok : (countTokens t : ℚ) ≤
      (maxOutputTokens model : ℚ) * maxInputTokensRatio) :
    splitTranscription countTokens segmenterCount model t = [t] := by
  have hthr : ¬((countTokens (joinSep "\n" (normalizedLines t)) : ℚ) >
      refineThreshold model) := by
    rw [← hnf]
    push_neg
    refine le_trans htok ?_
    unfold refineThreshold
    have hB : (0 : ℚ) ≤ (maxOutputTokens model : ℚ) := by positivity
    have hr : maxInputTokensRatio ≤ maxInputTokensRatio + tokenTolerance := by
      norm_num [tokenTolerance]
    exact mul_le_mul_of_nonneg_left hr hB
  unfold splitTranscription
  rw [splitTranscriptionGroups_single countTokens segmenterCount model t
    hunits htok hthr]
  rw [List.map_singleton]
  congr 1
  unfold joinGroup
  rw [List.map_map,
    show (Prod.fst ∘ fun l => (l, segmenterCount l)) = id from rfl,
    List.map_id, ← hnf]

/-- C3 witness: the two-line normal-form input `"a\nb"` (3 estimated
tokens, far under the GPT-4 budget) comes back as the single chunk
`["a\nb"]`. -/
theorem splitTranscription_trivial_input_witness :
    splitTranscription String.length String.length ModelKey.gpt4 "a\nb" =
      ["a\nb"] := by
  refine splitTranscription_trivial_input String.length String.length
    ModelKey.gpt4 "a\nb" ?_ ?_ ?_
  · decide
  · decide
  · rw [show String.length "a\nb" = 3 from rfl]
    norm_num [maxOutputTokens, maxInputTokensRatio]

/-- C9: when the first normalized line already counts at least the ideal
per-chunk unit count (`segmenterCount t / expectedSegments`, with at least
one segment expected), the strict `<` of the greedy pass rejects it from
the seed's empty group, the empty group survives refinement (its token
re-estimate is compared, and popping from an empty group stops the loop),
and the first returned chunk is the empty string. -/
theorem splitTranscription_empty_first_chunk
    (countTokens segmenterCount : String → Nat) (model : ModelKey)
    (t : String)
    (hne : normalizedLines t ≠ [])
    (hexp : 1 ≤ expectedSegmentsOf model (countTokens t))
    (hfirst : (segmenterCount t : ℚ) /
        (expectedSegmentsOf model (countTokens t) : ℚ) ≤
      (segmenterCount ((normalizedLines t).headI) : ℚ)) :
    (splitTranscription countTokens segmenterCount model t).head? =
      some "" := by
  obtain ⟨l₁, ls, hl⟩ := List.exists_cons_of_ne_nil hne
  have hheadI : (normalizedLines t).headI = l₁ := by rw [hl]; rfl
  rw [hheadI] at hfirst
  have hnj : ¬ joinsCurrent (expectedSegmentsOf model (countTokens t))
      (segmenterCount t) 0 (segmenterCount l₁) := by
    unfold joinsCurrent
    rw [if_neg (by omega)]
    push_neg
    push_cast
    rw [zero_add]
    exact hfirst
  have hstep1 : buildStep (expectedSegmentsOf model (countTokens t))
      (segmenterCount t) [[]] (l₁, segmenterCount l₁) =
      [[], [(l₁, segmenterCount l₁)]] := by
    unfold buildStep
    rw [show groupUnits (([[]] : List LineGroup).getLastD []) = 0 from rfl]
    rw [show ((l₁, segmenterCount l₁) : Line).2 = segmenterCount l₁ from rfl,
      if_neg hnj]
    rfl
  have hhead := buildGroups_foldl_head (expectedSegmentsOf model
      (countTokens t)) (segmenterCount t)
      (ls.map (fun l => (l, segmenterCount l)))
      [[], [(l₁, segmenterCount l₁)]] (by simp)
  have hfold : buildGroups (expectedSegmentsOf model (countTokens t))
      (segmenterCount t)
      ((normalizedLines t).map (fun l => (l, segmenterCount l))) =
      List.foldl (buildStep (expectedSegmentsOf model (countTokens t))
        (segmenterCount t)) [[], [(l₁, segmenterCount l₁)]]
        (ls.map (fun l => (l, segmenterCount l))) := by
    unfold buildGroups
    rw [hl, List.map_cons, List.foldl_cons, hstep1]
  rcases hB : List.foldl (buildStep (expectedSegmentsOf model
      (countTokens t)) (segmenterCount t)) [[], [(l₁, segmenterCount l₁)]]
      (ls.map (fun l => (l, segmenterCount l))) with _ | ⟨g0, rest⟩
  · rw [hB] at hhead
    simp at hhead
  · rw [hB] at hhead
    have hg0 : g0 = [] := by simpa using hhead.1
    have hrest : rest ≠ [] := by
      intro hc
      subst hc
      have := hhead.2
      simp at this
    obtain ⟨r, rs, hr⟩ := List.exists_cons_of_ne_nil hrest
    unfold splitTranscription splitTranscriptionGroups
    rw [hfold, hB, hg0, hr]
    show ((refineAll countTokens (refineThreshold model) [] (r :: rs)).map
      joinGroup).head? = some ""
    rw [refineAll, whileRefine_nil]
    rfl

/-- C9 witness: on the single-line input `"a"` (one expected segment,
ideal unit count 1, first-line unit count 1) the first chunk is the empty
string. -/
theorem splitTranscription_empty_first_chunk_witness :
    (splitTranscription String.length String.length ModelKey.gpt4
      "a").head? = some "" := by
  refine splitTranscription_empty_first_chunk String.length String.length
    ModelKey.gpt4 "a" ?_ ?_ ?_
  · decide
  · rw [show String.length "a" = 1 from rfl, expectedSegmentsOf_gpt4_one]
  · rw [show String.length "a" = 1 from rfl, expectedSegmentsOf_gpt4_one]
    rw [show (normalizedLines "a").headI = "a" from by decide]
    rw [show String.length "a" = 1 from rfl]
    norm_num

/-- The refinement `while` loop with a fallible token estimator (the
source's `countTokens` is an `async` call into a tokenizer or the Gemini
API and may reject): identical control flow to `whileRefine`, with an
estimator failure aborting the whole loop. -/
def whileRefineE {ε : Type} (countTokens : String → Except ε Nat) (thr : ℚ)
    (g : LineGroup) (next? : Option LineGroup) :
    Except ε (LineGroup × Option LineGroup) :=
  (countTokens (joinGroup g)).bind fun n =>
    if (n : ℚ) > thr then
      if g.length = 1 then .ok (g, next?)
      else
        match g with
        | [] => .ok ([], next?)
        | a :: as =>
          whileRefineE countTokens thr (a :: as).dropLast
            (some ((a :: as).getLast (List.cons_ne_nil a as) :: next?.getD []))
    else .ok (g, next?)
termination_by g.length
decreasing_by
  simp [List.length_dropLast]

/-- When the fallible estimator agrees with a pure one, the fallible
refinement loop succeeds with the pure loop's result. -/
theorem whileRefineE_sim {ε : Type} (countTokensE : String → Except ε Nat)
    (countTokens : String → Nat)
    (hsim : ∀ s, countTokensE s = .ok (countTokens s)) (thr : ℚ) :
    ∀ (g : LineGroup) (next? : Option LineGroup),
      whileRefineE countTokensE thr g next? =
        .ok (whileRefine countTokens thr g next?) := by
  intro g next?
  induction g, next? using whileRefine.induct countTokens thr with
  | case1 g next? h hlen1 =>
    rw [whileRefineE.eq_def, whileRefine.eq_def, hsim (joinGroup g)]
    simp only [Except.bind, if_pos h, if_pos hlen1]
  | case2 next? h hlen =>
    rw [whileRefineE.eq_def, whileRefine.eq_def, hsim (joinGroup [])]
    simp only [Except.bind, if_pos h, if_neg hlen]
  | case3 next? a as h hlen ih =>
    rw [whileRefineE.eq_def, whileRefine.eq_def, hsim (joinGroup (a :: as))]
    simp only [Except.bind, if_pos h, if_neg hlen]
    exact ih
  | case4 g next? h =>
    rw [whileRefineE.eq_def, whileRefine.eq_def, hsim (joinGroup g)]
    simp only [Except.bind, if_neg h]

/-- Every error the fallible refinement loop returns originates in some
estimator call. -/
theorem whileRefineE_error_src {ε : Type} (countTokens : String → Except ε Nat)
    (thr : ℚ) :
    ∀ (n : Nat) (g : LineGroup), g.length = n →
      ∀ (next? : Option LineGroup) (e : ε),
        whileRefineE countTokens thr g next? = .error e →
          ∃ s, countTokens s = .error e := by
  intro n
  induction n using Nat.strong_induction_on with
  | _ n ih =>
    intro g hg next? e he
    rw [whileRefineE.eq_def] at he
    rcases hc : countTokens (joinGroup g) with e' | k
    · rw [hc] at he
      simp only [Except.bind] at he
      injection he with he'
      exact ⟨joinGroup g, by rw [hc, he']⟩
    · rw [hc] at he
      simp only [Except.bind] at he
      split at he
      · split at he
        · exact absurd he (by simp)
        · match g, hg, he with
          | [], hg, he => exact absurd he (by simp)
          | a :: as, hg, he =>
            refine ih (a :: as).dropLast.length ?_ (a :: as).dropLast rfl _ e he
            subst hg
            simp [List.length_dropLast]
      · exact absurd he (by simp)

/-- The pure estimator read off a fallible one (0 at failure points; only
used at strings where the fallible estimator succeeded). -/
def pureOf {ε : Type} (countTokens : String → Except ε Nat) : String → Nat :=
  fun s => ((countTokens s).toOption).getD 0

/-- A successful run of the fallible refinement loop computes exactly what
the pure loop computes for the read-off estimator. -/
theorem whileRefineE_ok {ε : Type} (countTokens : String → Except ε Nat)
    (thr : ℚ) :
    ∀ (n : Nat) (g : LineGroup), g.length = n →
      ∀ (next? : Option LineGroup) (r : LineGroup × Option LineGroup),
        whileRefineE countTokens thr g next? = .ok r →
          whileRefine (pureOf countTokens) thr g next? = r := by
  intro n
  induction n using Nat.strong_induction_on with
  | _ n ih =>
    intro g hg next? r he
    rw [whileRefineE.eq_def] at he
    rw [whileRefine.eq_def]
    rcases hc : countTokens (joinGroup g) with e' | k
    · rw [hc] at he
      simp only [Except.bind] at he
      exact absurd he (by simp)
    · rw [hc] at he
      simp only [Except.bind] at he
      have hpk : pureOf countTokens (joinGroup g) = k := by
        unfold pureOf
        rw [hc]
        rfl
      rw [hpk]
      split at he
      · rw [if_pos (by assumption)]
        split at he
        · rw [if_pos (by assumption)]
          injection he
        · rw [if_neg (by assumption)]
          match g, hg, he with
          | [], hg, he =>
            injection he
          | a :: as, hg, he =>
            refine ih (a :: as).dropLast.length ?_ (a :: as).dropLast rfl _ r he
            subst hg
            simp [List.length_dropLast]
      · rw [if_neg (by assumption)]
        injection he

/-- The cascade at the trailing group, with the fallible estimator: an
estimator failure inside any iteration aborts the whole cascade. -/
def refineCascadeE {ε : Type} (countTokens : String → Except ε Nat) (thr : ℚ)
    (g : LineGroup) : Except ε (List LineGroup) :=
  match hw : whileRefineE countTokens thr g none with
  | .error e => .error e
  | .ok r =>
    if h : r.2 = none then .ok [r.1]
    else (refineCascadeE countTokens thr (r.2.getD [])).map (fun gs => r.1 :: gs)
termination_by g.length
decreasing_by
  have hp := whileRefineE_ok countTokens thr g.length g rfl none r hw
  obtain ⟨m, hm⟩ := Option.ne_none_iff_exists'.mp h
  have h1 := whileRefine_created (pureOf countTokens) thr g m
    (by rw [hp]; exact hm)
  have h2 := congrArg List.length (whileRefine_append (pureOf countTokens)
    thr g none)
  rw [hp] at h1 h2
  simp [hm] at h2 ⊢
  omega

/-- Every error the fallible cascade returns originates in some estimator
call. -/
theorem refineCascadeE_error_src {ε : Type}
    (countTokens : String → Except ε Nat) (thr : ℚ) :
    ∀ (n : Nat) (g : LineGroup), g.length = n → ∀ (e : ε),
      refineCascadeE countTokens thr g = .error e →
        ∃ s, countTokens s = .error e := by
  intro n
  induction n using Nat.strong_induction_on with
  | _ n ih =>
    intro g hg e he
    rw [refineCascadeE.eq_def] at he
    split at he
    · rename_i e' heq
      injection he with he'
      subst he'
      exact whileRefineE_error_src countTokens thr g.length g rfl none e' heq
    · rename_i r heq
      split at he
      · exact absurd he (by simp)
      · rename_i hne
        rcases hmap : refineCascadeE countTokens thr (r.2.getD []) with e' | gs
        · rw [hmap] at he
          simp only [Except.map] at he
          injection he with he'
          subst he'
          have hp := whileRefineE_ok countTokens thr g.length g rfl none r heq
          obtain ⟨m, hm⟩ := Option.ne_none_iff_exists'.mp hne
          have h1 := whileRefine_created (pureOf countTokens) thr g m
            (by rw [hp]; exact hm)
          have h2 := congrArg List.length
            (whileRefine_append (pureOf countTokens) thr g none)
          rw [hp] at h1 h2
          refine ih (r.2.getD []).length ?_ (r.2.getD []) rfl e' hmap
          subst hg
          simp [hm] at h2 ⊢
          omega
        · rw [hmap] at he
          simp only [Except.map] at he
          exact absurd he (by simp)

/-- When the fallible estimator agrees with a pure one, the fallible
cascade succeeds with the pure cascade's result. -/
theorem refineCascadeE_sim {ε : Type} (countTokensE : String → Except ε Nat)
    (countTokens : String → Nat)
    (hsim : ∀ s, countTokensE s = .ok (countTokens s)) (thr : ℚ) :
    ∀ (g : LineGroup),
      refineCascadeE countTokensE thr g = .ok (refineCascade countTokens thr g) := by
  intro g
  induction g using refineCascade.induct countTokens thr with
  | case1 x h =>
    rw [refineCascadeE.eq_def, refineCascade, dif_pos h]
    split
    · rename_i e' heq
      rw [whileRefineE_sim countTokensE countTokens hsim thr x none] at heq
      exact absurd heq (by simp)
    · rename_i r heq
      rw [whileRefineE_sim countTokensE countTokens hsim thr x none] at heq
      injection heq with heq'
      subst heq'
      rw [dif_pos h]
  | case2 x h ih =>
    rw [refineCascadeE.eq_def, refineCascade, dif_neg h]
    split
    · rename_i e' heq
      rw [whileRefineE_sim countTokensE countTokens hsim thr x none] at heq
      exact absurd heq (by simp)
    · rename_i r heq
      rw [whileRefineE_sim countTokensE countTokens hsim thr x none] at heq
      injection heq with heq'
      subst heq'
      rw [dif_neg h, ih]
      rfl

/-- The outer refinement loop with the fallible estimator. -/
def refineAllE {ε : Type} (countTokens : String → Except ε Nat) (thr : ℚ) :
    LineGroup → List LineGroup → Except ε (List LineGroup)
  | g, [] => refineCascadeE countTokens thr g
  | g, r :: rs =>
    (whileRefineE countTokens thr g (some r)).bind fun p =>
      (refineAllE countTokens thr (p.2.getD r) rs).map (fun gs => p.1 :: gs)

/-- Every error the fallible refinement pass returns originates in some
estimator call. -/
theorem refineAllE_error_src {ε : Type} (countTokens : String → Except ε Nat)
    (thr : ℚ) :
    ∀ (rest : List LineGroup) (g : LineGroup) (e : ε),
      refineAllE countTokens thr g rest = .error e →
        ∃ s, countTokens s = .error e := by
  intro rest
  induction rest with
  | nil =>
    intro g e he
    exact refineCascadeE_error_src countTokens thr g.length g rfl e he
  | cons r rs ih =>
    intro g e he
    rw [refineAllE] at he
    rcases hw : whileRefineE countTokens thr g (some r) with e' | p
    · rw [hw] at he
      simp only [Except.bind] at he
      injection he with he'
      subst he'
      exact whileRefineE_error_src countTokens thr g.length g rfl (some r) e' hw
    · rw [hw] at he
      simp only [Except.bind] at he
      rcases hrec : refineAllE countTokens thr (p.2.getD r) rs with e' | gs
      · rw [hrec] at he
        simp only [Except.map] at he
        injection he with he'
        subst he'
        exact ih (p.2.getD r) e' hrec
      · rw [hrec] at he
        simp only [Except.map] at he
        exact absurd he (by simp)

/-- When the fallible estimator agrees with a pure one, the fallible
refinement pass succeeds with the pure pass's result. -/
theorem refineAllE_sim {ε : Type} (countTokensE : String → Except ε Nat)
    (countTokens : String → Nat)
    (hsim : ∀ s, countTokensE s = .ok (countTokens s)) (thr : ℚ) :
    ∀ (rest : List LineGroup) (g : LineGroup),
      refineAllE countTokensE thr g rest =
        .ok (refineAll countTokens thr g rest) := by
  intro rest
  induction rest with
  | nil =>
    intro g
    rw [refineAllE, refineAll]
    exact refineCascadeE_sim countTokensE countTokens hsim thr g
  | cons r rs ih =>
    intro g
    rw [refineAllE, refineAll,
      whileRefineE_sim countTokensE countTokens hsim thr g (some r)]
    simp only [Except.bind]
    rw [ih]
    rfl

/-- Function `splitTranscription` with the fallible estimator, as the source runs
it: one initial estimate of the whole transcription, then the grouping
pass (which makes no estimator call), then the refinement pass. -/
def splitTranscriptionE {ε : Type} (countTokens : String → Except ε Nat)
    (segmenterCount : String → Nat) (model : ModelKey) (t : String) :
    Except ε (List String) :=
  (countTokens t).bind fun tokens =>
    Except.map (fun gs => gs.map joinGroup)
      (match buildGroups (expectedSegmentsOf model tokens) (segmenterCount t)
          ((normalizedLines t).map (fun l => (l, segmenterCount l))) with
        | [] => Except.ok []
        | g :: rest => refineAllE countTokens (refineThreshold model) g rest)

/-- C6: estimator failure is terminal and atomic.  If the very first
estimator call (on the whole transcription) fails, `splitTranscription`
fails with that error; every error the function can return originates in
some estimator call (there is no retry and no fallback, so a failure at
any stage — including the refinement pass after some chunks were formed —
surfaces as the function's own failure, and by the `Except` result type no
chunks are returned alongside it); and whenever the estimator behaves as a
pure function, the run succeeds with exactly the pure segmenter's chunks
(the function has no effect on its input, which is a value). -/
theorem splitTranscription_estimator_failure {ε : Type}
    (countTokensE : String → Except ε Nat)
    (countTokens segmenterCount : String → Nat) (model : ModelKey)
    (t : String) (e : ε) :
    (countTokensE t = .error e →
      splitTranscriptionE countTokensE segmenterCount model t = .error e)
    ∧ (splitTranscriptionE countTokensE segmenterCount model t = .error e →
        ∃ s, countTokensE s = .error e)
    ∧ ((∀ s, countTokensE s = .ok (countTokens s)) →
        splitTranscriptionE countTokensE segmenterCount model t =
          .ok (splitTranscription countTokens segmenterCount model t)) := by
  refine ⟨?_, ?_, ?_⟩
  · intro h
    unfold splitTranscriptionE
    rw [h]
    simp only [Except.bind]
  · intro he
    unfold splitTranscriptionE at he
    rcases hc : countTokensE t with e' | tokens
    · rw [hc] at he
      simp only [Except.bind] at he
      injection he with he'
      subst he'
      exact ⟨t, hc⟩
    · rw [hc] at he
      simp only [Except.bind] at he
      rcases hB : buildGroups (expectedSegmentsOf model tokens)
          (segmenterCount t)
          ((normalizedLines t).map (fun l => (l, segmenterCount l)))
          with _ | ⟨g, rest⟩
      · rw [hB] at he
        simp only [Except.map] at he
        exact absurd he (by simp)
      · rw [hB] at he
        simp only at he
        rcases hr : refineAllE countTokensE (refineThreshold model) g rest
            with e' | gs
        · rw [hr] at he
          simp only [Except.map] at he
          injection he with he'
          subst he'
          exact refineAllE_error_src countTokensE (refineThreshold model)
            rest g e' hr
        · rw [hr] at he
          simp only [Except.map] at he
          exact absurd he (by simp)
  · intro hsim
    unfold splitTranscriptionE splitTranscription splitTranscriptionGroups
    rw [hsim t]
    simp only [Except.bind]
    rcases hB : buildGroups (expectedSegmentsOf model (countTokens t))
        (segmenterCount t)
        ((normalizedLines t).map (fun l => (l, segmenterCount l)))
        with _ | ⟨g, rest⟩
    · simp only [Except.map, List.map_nil]
    · show Except.map (fun gs => List.map joinGroup gs)
        (refineAllE countTokensE (refineThreshold model) g rest) =
        Except.ok (List.map joinGroup
          (refineAll countTokens (refineThreshold model) g rest))
      rw [refineAllE_sim countTokensE countTokens hsim
        (refineThreshold model) rest g]
      simp only [Except.map]

/-- A fallible estimator that always fails. -/
def alwaysFailTok : String → Except String Nat := fun _ => .error "boom"

/-- A fallible estimator that fails exactly on the empty string (queried
by the refinement pass for the surviving empty seed group, after the
initial whole-text estimate succeeded). -/
def failOnEmptyTok : String → Except String Nat :=
  fun s => if s = "" then .error "boom" else .ok s.length

/-- C6 witness: a failing initial estimate aborts the whole segmentation
with that error; an agreeing estimator reproduces the pure result; and an
estimator that fails only on a chunk formed during refinement (the empty
string, never equal to the input) aborts the run after the initial
estimate succeeded. -/
theorem splitTranscription_estimator_failure_witness :
    splitTranscriptionE alwaysFailTok String.length ModelKey.gpt4 "a" =
        .error "boom"
    ∧ splitTranscriptionE
        (fun s => (Except.ok (String.length s) : Except String Nat))
        String.length ModelKey.gpt4 "a\nb" =
        .ok (splitTranscription String.length String.length ModelKey.gpt4
          "a\nb")
    ∧ splitTranscriptionE failOnEmptyTok String.length ModelKey.gpt4 "a" =
        .error "boom" := by
  refine ⟨(splitTranscription_estimator_failure alwaysFailTok String.length
      String.length ModelKey.gpt4 "a" "boom").1 rfl,
    (splitTranscription_estimator_failure
      (fun s => (Except.ok (String.length s) : Except String Nat))
      String.length String.length ModelKey.gpt4 "a\nb" "boom").2.2
      (fun _ => rfl), ?_⟩
  have hnorm : (normalizedLines "a").map (fun l => (l, String.length l)) =
      [("a", 1)] := by decide
  have hok : failOnEmptyTok "a" = .ok 1 := rfl
  have hnj : ¬ joinsCurrent 1 1 0 1 := by
    unfold joinsCurrent
    rw [if_neg one_ne_zero]
    norm_num
  have hbuild : buildGroups (expectedSegmentsOf ModelKey.gpt4 1)
      (String.length "a")
      ((normalizedLines "a").map (fun l => (l, String.length l))) =
      [[], [("a", 1)]] := by
    rw [hnorm, expectedSegmentsOf_gpt4_one,
      show String.length "a" = 1 from rfl]
    unfold buildGroups
    rw [List.foldl_cons, List.foldl_nil]
    unfold buildStep
    rw [show groupUnits (([[]] : List LineGroup).getLastD []) = 0 from rfl]
    rw [show (("a", 1) : Line).2 = 1 from rfl, if_neg hnj]
    rfl
  unfold splitTranscriptionE
  rw [hok]
  simp only [Except.bind]
  rw [hbuild]
  show Except.map (fun gs => gs.map joinGroup)
    (refineAllE failOnEmptyTok (refineThreshold ModelKey.gpt4) []
      [[("a", 1)]]) = .error "boom"
  rw [refineAllE, whileRefineE.eq_def]
  rw [show failOnEmptyTok (joinGroup []) = .error "boom" from rfl]
  simp only [Except.bind, Except.map]

/-- An audio segment as returned by `splitAudio` in `src/ffmpeg.ts`:
`{ path, startTime, endTime }`. -/
structure AudioSegment where
  path : String
  startTime : ℚ
  endTime : ℚ
deriving DecidableEq

/-- The `format` fields `splitAudio` reads from ffprobe; both are
`number | undefined` in the vendor typings. -/
structure FfprobeFormat where
  duration : Option ℚ
  size : Option ℚ

/-- Error thrown when ffprobe reports no (or zero) duration or size. -/
def ffprobeMetadataError : String := "Failed to get file metadata from ffprobe."

/-- Error thrown when a segment-manifest row lacks a required field. -/
def csvParseError : String := "Failed to parse CSV file."

/-- Model of `node:path` `dirname`, for the simple slash-separated paths the
pipeline builds (no normalization of `..` or repeated slashes). -/
def dirname (p : String) : String :=
  match (splitChar '/' p.data).dropLast with
  | [] => "."
  | parts => joinSep "/" (parts.map (fun l => String.mk l))

/-- Model of `node:path` `basename` (final path component). -/
def pathBasename (p : String) : String :=
  String.mk ((splitChar '/' p.data).getLastD [])

/-- Strip the `extname` suffix, as `basename(p, extname(p))` does: drop
the final dot-separated component when there is one. -/
def stripExt (s : String) : String :=
  match splitChar '.' s.data with
  | [] => s
  | [_] => s
  | parts => joinSep "." ((parts.dropLast).map (fun l => String.mk l))

/-- Model of `node:path` `join` for one segment, for the simple paths built here
(`join(".", f)` collapses to `f`). -/
def joinPath (d f : String) : String :=
  if d = "." then f else d ++ "/" ++ f

/-- Path `join(dir, basename(source, ext) + ".csv")`: the `-segment_list` file
the transcode writes next to the source. -/
def listFilePath (sourcePath : String) : String :=
  joinPath (dirname sourcePath) (stripExt (pathBasename sourcePath) ++ ".csv")

/-- Field `row[i]` of a parsed CSV row; a missing entry and an empty string are
both falsy in the source's `!(row[0] && row[1] && row[2])` check. -/
def rowField (row : List String) (i : Nat) : String := (row.get? i).getD ""

/-- A manifest row fails the source's required-field check. -/
def rowIncomplete (row : List String) : Prop :=
  rowField row 0 = "" ∨ rowField row 1 = "" ∨ rowField row 2 = ""

instance (row : List String) : Decidable (rowIncomplete row) := by
  unfold rowIncomplete
  infer_instance

/-- Function `splitAudio` of `src/ffmpeg.ts`.  The external collaborators are
modelled as inputs: `probe` is what ffprobe reports, `manifest` the parsed
CSV rows the segmenting transcode would produce (the transcode itself only
runs on the slow path, whose result is read exclusively from the
manifest), and `toNumber` is JavaScript's `Number` conversion applied to
the start/end columns.  The falsy test `!(duration && size)` rejects a
missing value and the number `0` alike; on the fast path
(`size <= maxFileSize`) the manifest is never consulted. -/
def splitAudio (toNumber : String → ℚ) (sourcePath : String)
    (maxFileSize : ℚ) (probe : FfprobeFormat)
    (manifest : List (List String)) : Except String (List AudioSegment) :=
  match probe.duration, probe.size with
  | some duration, some size =>
    if duration = 0 ∨ size = 0 then .error ffprobeMetadataError
    else if size ≤ maxFileSize then
      .ok [⟨sourcePath, 0, duration⟩]
    else
      manifest.mapM (fun row =>
        if rowIncomplete row then
          (.error csvParseError : Except String AudioSegment)
        else
          .ok ⟨joinPath (dirname (listFilePath sourcePath)) (rowField row 0),
            toNumber (rowField row 1), toNumber (rowField row 2)⟩)
  | _, _ => .error ffprobeMetadataError

/-- Mapping a row-parser that only ever throws the CSV error over a list:
if every element parses, the parses are returned in order. -/
theorem mapM_ok_of_all {α β : Type} (f : α → Except String β)
    (g : α → β) :
    ∀ (l : List α), (∀ x ∈ l, f x = .ok (g x)) →
      l.mapM f = .ok (l.map g) := by
  intro l
  induction l with
  | nil => intro _; rfl
  | cons a l ih =>
    intro h
    rw [List.mapM_cons, h a (List.mem_cons_self _ _),
      ih (fun x hx => h x (List.mem_cons_of_mem a hx))]
    rfl

/-- Mapping a row-parser over a list containing a failing element fails
with that parser's error, provided every element either fails with it or
parses. -/
theorem mapM_error_of_mem {α β : Type} (f : α → Except String β) (e : String)
    (hsplit : ∀ x, f x = .error e ∨ ∃ y, f x = .ok y) :
    ∀ (l : List α), (∃ x ∈ l, f x = .error e) →
      l.mapM f = .error e := by
  intro l
  induction l with
  | nil => rintro ⟨x, hx, _⟩; exact absurd hx (by simp)
  | cons a l ih =>
    rintro ⟨x, hx, hfx⟩
    rw [List.mapM_cons]
    rcases hsplit a with ha | ⟨y, hy⟩
    · rw [ha]
      rfl
    · rw [hy]
      rcases List.mem_cons.mp hx with hxa | hxl
      · subst hxa
        rw [hy] at hfx
        exact absurd hfx (by simp)
      · rw [ih ⟨x, hxl, hfx⟩]
        rfl

/-- A row-parser that only ever throws one error cannot make `mapM`
produce a different one. -/
theorem mapM_error_unique {α β : Type} (f : α → Except String β) (e : String)
    (hsplit : ∀ x, f x = .error e ∨ ∃ y, f x = .ok y) :
    ∀ (l : List α) (e' : String), l.mapM f = .error e' → e' = e := by
  intro l
  induction l with
  | nil => intro e' h; exact Except.noConfusion h
  | cons a l ih =>
    intro e' h
    rw [List.mapM_cons] at h
    rcases hsplit a with ha | ⟨y, hy⟩
    · rw [ha] at h
      injection h with h'
      exact h'.symm
    · rw [hy] at h
      rcases hrec : l.mapM f with e'' | ys
      · rw [hrec] at h
        injection h with h'
        exact h'.symm.trans (ih e'' hrec)
      · rw [hrec] at h
        exact Except.noConfusion h

/-- Unfolding of `splitAudio` when ffprobe reports both metrics. -/
theorem splitAudio_some (toNumber : String → ℚ) (sourcePath : String)
    (maxFileSize : ℚ) (d s : ℚ) (manifest : List (List String)) :
    splitAudio toNumber sourcePath maxFileSize ⟨some d, some s⟩ manifest =
      (if d = 0 ∨ s = 0 then .error ffprobeMetadataError
       else if s ≤ maxFileSize then .ok [⟨sourcePath, 0, d⟩]
       else manifest.mapM (fun row =>
        if rowIncomplete row then
          (.error csvParseError : Except String AudioSegment)
        else
          .ok ⟨joinPath (dirname (listFilePath sourcePath)) (rowField row 0),
            toNumber (rowField row 1), toNumber (rowField row 2)⟩)) := rfl

/-- C4: Media Splitter fast path.  Whenever ffprobe reports nonzero
duration and size and the size is at most `maxFileSize`, `splitAudio`
returns exactly one segment: the unchanged source path spanning
`[0, duration]`.  The result is stated for every `manifest` value, which
is the model's expression of the fact that the fast path never invokes
the segmenting transcode (whose output is only observable through the
manifest). -/
theorem splitAudio_fast_path (toNumber : String → ℚ) (sourcePath : String)
    (maxFileSize : ℚ) (d s : ℚ) (manifest : List (List String))
    (hd : d ≠ 0) (hs : s ≠ 0) (hle : s ≤ maxFileSize) :
    splitAudio toNumber sourcePath maxFileSize ⟨some d, some s⟩ manifest =
      .ok [⟨sourcePath, 0, d⟩] := by
  rw [splitAudio_some, if_neg (by push_neg; exact ⟨hd, hs⟩), if_pos hle]

/-- C4 witness: a 7-byte source under a 10-byte limit with duration 5
comes back as the single segment `[0, 5]`, whatever the manifest says. -/
theorem splitAudio_fast_path_witness :
    splitAudio (fun _ => 0) "dir/x.mp3" 10 ⟨some 5, some 7⟩ [["r"]] =
      .ok [⟨"dir/x.mp3", 0, 5⟩] :=
  splitAudio_fast_path (fun _ => 0) "dir/x.mp3" 10 5 7 [["r"]]
    (by norm_num) (by norm_num) (by norm_num)

/-- C5: manifest parsing is fail-fast and all-or-nothing.  On the slow
path (nonzero metrics, size over the limit): if any manifest row lacks one
of the three required fields, `splitAudio` rejects with the CSV error and
returns no segments; if every row is complete, it returns one segment per
row, in manifest order, the row's path resolved against the manifest's
directory and the start/end fields converted to numbers. -/
theorem splitAudio_manifest (toNumber : String → ℚ) (sourcePath : String)
    (maxFileSize : ℚ) (d s : ℚ) (manifest : List (List String))
    (hd : d ≠ 0) (hs : s ≠ 0) (hgt : ¬ s ≤ maxFileSize) :
    ((∃ row ∈ manifest, rowIncomplete row) →
      splitAudio toNumber sourcePath maxFileSize ⟨some d, some s⟩ manifest =
        .error csvParseError)
    ∧ ((∀ row ∈ manifest, ¬ rowIncomplete row) →
      splitAudio toNumber sourcePath maxFileSize ⟨some d, some s⟩ manifest =
        .ok (manifest.map (fun row =>
          ⟨joinPath (dirname (listFilePath sourcePath)) (rowField row 0),
            toNumber (rowField row 1), toNumber (rowField row 2)⟩))) := by
  have hsplit : ∀ row, (if rowIncomplete row then
      (.error csvParseError : Except String AudioSegment)
      else .ok ⟨joinPath (dirname (listFilePath sourcePath)) (rowField row 0),
        toNumber (rowField row 1), toNumber (rowField row 2)⟩) =
        .error csvParseError ∨
      ∃ y, (if rowIncomplete row then
      (.error csvParseError : Except String AudioSegment)
      else .ok ⟨joinPath (dirname (listFilePath sourcePath)) (rowField row 0),
        toNumber (rowField row 1), toNumber (rowField row 2)⟩) = .ok y := by
    intro row
    by_cases h : rowIncomplete row
    · left
      rw [if_pos h]
    · right
      exact ⟨_, by rw [if_neg h]⟩
  constructor
  · rintro ⟨row, hrow, hbad⟩
    rw [splitAudio_some, if_neg (by push_neg; exact ⟨hd, hs⟩), if_neg hgt]
    exact mapM_error_of_mem _ csvParseError hsplit manifest
      ⟨row, hrow, by rw [if_pos hbad]⟩
  · intro hall
    rw [splitAudio_some, if_neg (by push_neg; exact ⟨hd, hs⟩), if_neg hgt]
    exact mapM_ok_of_all _ _ manifest
      (fun row hrow => by rw [if_neg (hall row hrow)])

/-- C5 witness: over the limit, a manifest whose second row misses its
end-time field is rejected whole; the complete two-row manifest yields the
two segments in order with resolved paths and converted times. -/
theorem splitAudio_manifest_witness :
    (splitAudio (fun _ => 2) "dir/x.mp3" 10 ⟨some 5, some 20⟩
        [["x000.mp3", "0", "9"], ["x001.mp3", "9"]] =
      .error csvParseError)
    ∧ (splitAudio (fun _ => 2) "dir/x.mp3" 10 ⟨some 5, some 20⟩
        [["x000.mp3", "0", "9"], ["x001.mp3", "9", "18"]] =
      .ok [⟨"dir/x000.mp3", 2, 2⟩, ⟨"dir/x001.mp3", 2, 2⟩]) := by
  constructor
  · exact (splitAudio_manifest (fun _ => 2) "dir/x.mp3" 10 5 20
      [["x000.mp3", "0", "9"], ["x001.mp3", "9"]]
      (by norm_num) (by norm_num) (by norm_num)).1
      ⟨["x001.mp3", "9"], by decide, by decide⟩
  · have h := (splitAudio_manifest (fun _ => 2) "dir/x.mp3" 10 5 20
      [["x000.mp3", "0", "9"], ["x001.mp3", "9", "18"]]
      (by norm_num) (by norm_num) (by norm_num)).2
      (by decide)
    rw [h]
    rfl

/-- C10: `splitAudio` throws the ffprobe metadata error exactly when the
reported duration or size is absent or zero (the falsy check), so a
genuine zero-duration or zero-byte source is reported as a metadata
failure rather than as a single segment, and every successful result
requires both metrics present and nonzero. -/
theorem splitAudio_zero_metrics (toNumber : String → ℚ) (sourcePath : String)
    (maxFileSize : ℚ) (probe : FfprobeFormat)
    (manifest : List (List String)) :
    splitAudio toNumber sourcePath maxFileSize probe manifest =
        .error ffprobeMetadataError ↔
      (probe.duration = none ∨ probe.duration = some 0 ∨
        probe.size = none ∨ probe.size = some 0) := by
  obtain ⟨dur, siz⟩ := probe
  constructor
  · intro h
    match dur, siz, h with
    | none, _, h => left; rfl
    | some d, none, h => right; right; left; rfl
    | some d, some s, h =>
      rw [splitAudio_some] at h
      by_cases hz : d = 0 ∨ s = 0
      · rcases hz with hz | hz
        · right; left; rw [hz]
        · right; right; right; rw [hz]
      · rw [if_neg hz] at h
        by_cases hle : s ≤ maxFileSize
        · rw [if_pos hle] at h
          exact absurd h (by simp)
        · rw [if_neg hle] at h
          have := mapM_error_unique _ csvParseError (by
            intro row
            by_cases hr : rowIncomplete row
            · left; rw [if_pos hr]
            · right; exact ⟨_, by rw [if_neg hr]⟩) manifest
            ffprobeMetadataError h
          exact absurd this (by decide)
  · intro h
    match dur, siz, h with
    | none, _, h => rfl
    | some d, none, h => rfl
    | some d, some s, h =>
      rw [splitAudio_some]
      rcases h with h | h | h | h
      · exact absurd h (by simp)
      · injection h with h'
        rw [if_pos (Or.inl h')]
      · exact absurd h (by simp)
      · injection h with h'
        rw [if_pos (Or.inr h')]

/-- Model of `Promise.all` over per-segment calls: each concurrent call is
a pure function `f` of its segment, `arrival` is the order in which the
calls complete, and each completion stores its result at its segment's
index in the result array (never at the completion position).  The array
starts unfilled. -/
def fanIn {α : Type} (f : α → String) (xs : List α) (arrival : List Nat) :
    List (Option String) :=
  arrival.foldl
    (fun acc i =>
      match xs.get? i with
      | some x => acc.set i (some (f x))
      | none => acc)
    (List.replicate xs.length none)

/-- One completion step keeps the result array's length. -/
theorem fanIn_foldl_length {α : Type} (f : α → String) (xs : List α) :
    ∀ (arrival : List Nat) (acc : List (Option String)),
      (arrival.foldl (fun acc i =>
        match xs.get? i with
        | some x => acc.set i (some (f x))
        | none => acc) acc).length = acc.length := by
  intro arrival
  induction arrival with
  | nil => intro acc; rfl
  | cons a rest ih =>
    intro acc
    rw [List.foldl_cons, ih]
    rcases xs.get? a with _ | x
    · rfl
    · simp [List.length_set]

/-- Slots whose index never completes keep their value. -/
theorem fanIn_foldl_untouched {α : Type} (f : α → String) (xs : List α) :
    ∀ (arrival : List Nat) (acc : List (Option String)) (j : Nat),
      j ∉ arrival →
      (arrival.foldl (fun acc i =>
        match xs.get? i with
        | some x => acc.set i (some (f x))
        | none => acc) acc)[j]? = acc[j]? := by
  intro arrival
  induction arrival with
  | nil => intro acc j _; rfl
  | cons a rest ih =>
    intro acc j hj
    rw [List.foldl_cons, ih _ j (fun h => hj (List.mem_cons_of_mem a h))]
    rcases xs.get? a with _ | x
    · rfl
    · exact List.getElem?_set_ne
        (fun h => hj (by rw [← h]; exact List.mem_cons_self a rest))

/-- A slot whose index completes holds its call's result. -/
theorem fanIn_foldl_touched {α : Type} (f : α → String) (xs : List α) :
    ∀ (arrival : List Nat) (acc : List (Option String)) (j : Nat),
      j ∈ arrival → acc.length = xs.length →
      (arrival.foldl (fun acc i =>
        match xs.get? i with
        | some x => acc.set i (some (f x))
        | none => acc) acc)[j]? =
        (xs.get? j).map (fun x => some (f x)) := by
  intro arrival
  induction arrival with
  | nil => intro acc j hj _; exact absurd hj (by simp)
  | cons a rest ih =>
    intro acc j hj hlen
    rw [List.foldl_cons]
    by_cases hjr : j ∈ rest
    · refine ih _ j hjr ?_
      rcases xs.get? a with _ | x
      · exact hlen
      · simp [List.length_set, hlen]
    · have hja : j = a := by
        rcases List.mem_cons.mp hj with h | h
        · exact h
        · exact absurd h hjr
      subst hja
      rw [fanIn_foldl_untouched f xs rest _ j hjr]
      rcases hx : xs.get? j with _ | x
      · have hge : xs.length ≤ j := by
          by_contra hlt
          push_neg at hlt
          exact absurd hx (by simp [List.get?_eq_getElem?, hlt])
        show acc[j]? = Option.map (fun x => some (f x)) none
        rw [List.getElem?_eq_none (by omega)]
        rfl
      · have hlt : j < acc.length := by
          rw [hlen]
          by_contra hge
          push_neg at hge
          rw [List.get?_eq_getElem?, List.getElem?_eq_none hge] at hx
          exact absurd hx (by simp)
        show (acc.set j (some (f x)))[j]? =
          Option.map (fun x => some (f x)) (some x)
        rw [List.getElem?_set_self hlt]
        rfl

/-- C7: fan-in preserves original segment order.  Modeling each
per-segment transcription (or per-chunk proofreading) call as a pure
function of its segment and `Promise.all` as `fanIn` — results stored by
segment index, in an arbitrary completion order that is a permutation of
the indices — the filled result array equals the per-segment results in
original order, and joining it (with `"\n"` for transcriptions, `"\n\n"`
for proofread chunks; `sep` covers both) equals joining the results of
the segments in their original split order, independent of the completion
order. -/
theorem fanIn_preserves_order {α : Type} (f : α → String) (xs : List α)
    (arrival : List Nat) (sep : String)
    (hperm : arrival.Perm (List.range xs.length)) :
    fanIn f xs arrival = xs.map (fun x => some (f x))
    ∧ joinSep sep ((fanIn f xs arrival).map (fun o => o.getD "")) =
        joinSep sep (xs.map f) := by
  have hmain : fanIn f xs arrival = xs.map (fun x => some (f x)) := by
    apply List.ext_getElem?
    intro j
    by_cases hj : j < xs.length
    · have hjin : j ∈ arrival := hperm.mem_iff.mpr (List.mem_range.mpr hj)
      unfold fanIn
      rw [fanIn_foldl_touched f xs arrival _ j hjin (by simp)]
      rw [List.getElem?_map, List.get?_eq_getElem?]
    · push_neg at hj
      have hjout : j ∉ arrival := fun hin =>
        absurd (List.mem_range.mp (hperm.mem_iff.mp hin)) (by omega)
      unfold fanIn
      rw [fanIn_foldl_untouched f xs arrival _ j hjout]
      rw [List.getElem?_eq_none (by simpa using hj),
        List.getElem?_eq_none (by simpa using hj)]
  refine ⟨hmain, ?_⟩
  rw [hmain, List.map_map]
  rfl

/-- C7 witness: three segments completing in the order 2, 0, 1 still
fan in to the original order and join as if run sequentially. -/
theorem fanIn_preserves_order_witness :
    fanIn (fun s => s ++ "!") ["s0", "s1", "s2"] [2, 0, 1] =
      [some "s0!", some "s1!", some "s2!"]
    ∧ joinSep "\n" ((fanIn (fun s => s ++ "!") ["s0", "s1", "s2"]
        [2, 0, 1]).map (fun o => o.getD "")) =
      joinSep "\n" ["s0!", "s1!", "s2!"] := by
  have h := fanIn_preserves_order (fun s => s ++ "!") ["s0", "s1", "s2"]
    [2, 0, 1] "\n" (by decide)
  exact ⟨h.1, h.2⟩

/-- JavaScript falsiness of a metadata field value: absent, or present as
the empty string (`!data[field]`). -/
def fieldFalsy (v : Option String) : Bool :=
  match v with
  | none => true
  | some s => s.isEmpty

/-- Error thrown by `getFileMetadata` in `src/gdrive.ts` when a requested
field is missing from the response. -/
def driveMetadataError : String := "Failed to get file metadata."

/-- Function `getFileMetadata` of `src/gdrive.ts`, called with an array of fields
(as the transcribe pipeline does): the cloud response is modelled as a
partial record `data`; the function rejects when any requested field is
falsy in the response, and otherwise returns the record. -/
def getFileMetadata (data : String → Option String) (fields : List String) :
    Except String (String → Option String) :=
  if fields.any (fun f => fieldFalsy (data f)) then .error driveMetadataError
  else .ok data

/-- The field selector `transcribe` passes to `getFileMetadata` for the
source file. -/
def transcribeRequestedFields : List String :=
  ["name", "webViewLink", "mimeType", "parents"]

/-- Computation `sourceFile.mimeType.split("/")[0]`. -/
def mimeMainType (s : String) : String :=
  String.mk ((splitChar '/' s.data).headD [])

/-- Error thrown by `transcribe` when the source is neither video nor
audio. -/
def notMediaError : String := "Specified file is not a video nor an audio."

/-- The prefix of the `transcribe` pipeline of `src/transcribe.ts` up to
the first side-effecting cloud call after the metadata stage: fetch the
source metadata (awaited first), check the file type, then download.  The
later stages are outside the claims modelled here; the boolean records
whether control reached the `downloadFile` call. -/
def transcribeStages (data : String → Option String) :
    Except String Unit × Bool :=
  match getFileMetadata data transcribeRequestedFields with
  | .error e => (.error e, false)
  | .ok d =>
    let fileType := mimeMainType ((d "mimeType").getD "")
    if fileType ≠ "video" ∧ fileType ≠ "audio" then (.error notMediaError, false)
    else (.ok (), true)

/-- C8: missing-metadata failure precedes download.  When the cloud
metadata record lacks any requested field — in particular `mimeType` —
`getFileMetadata` throws the metadata error and the pipeline stops with
that error before `downloadFile` is ever invoked. -/
theorem transcribe_metadata_before_download (data : String → Option String)
    (hmiss : ∃ fld ∈ transcribeRequestedFields, fieldFalsy (data fld) = true) :
    getFileMetadata data transcribeRequestedFields = .error driveMetadataError
    ∧ (transcribeStages data).1 = .error driveMetadataError
    ∧ (transcribeStages data).2 = false := by
  obtain ⟨fld, hfld, hfalsy⟩ := hmiss
  have hany : transcribeRequestedFields.any (fun f => fieldFalsy (data f)) =
      true :=
    List.any_eq_true.mpr ⟨fld, hfld, hfalsy⟩
  have hg : getFileMetadata data transcribeRequestedFields =
      .error driveMetadataError := by
    unfold getFileMetadata
    rw [if_pos hany]
  refine ⟨hg, ?_, ?_⟩
  · unfold transcribeStages
    rw [hg]
  · unfold transcribeStages
    rw [hg]

/-- C8 witness: a metadata record lacking only `mimeType` makes the
pipeline fail with the metadata error without reaching the download. -/
theorem transcribe_metadata_before_download_witness :
    (transcribeStages (fun f => if f = "mimeType" then none
      else some "x")).1 = .error driveMetadataError
    ∧ (transcribeStages (fun f => if f = "mimeType" then none
      else some "x")).2 = false := by
  have h := transcribe_metadata_before_download
    (fun f => if f = "mimeType" then none else some "x")
    ⟨"mimeType", by decide, rfl⟩
  exact ⟨h.2.1, h.2.2⟩
